import Mathlib

/-!
Verification of the Atlas backtesting core against its specification.

This development shallowly embeds the deterministic backtesting pipeline of
the Atlas futures-trading research platform: the domain model
(`crates/core-types`), the simulated executor
(`crates/execution/src/simulated.rs`), the fractional-risk evaluator
(`crates/risk/src/simple_manager.rs`), the backtest driver
(`crates/backtester/src/lib.rs`), the analytics engine
(`crates/analytics/src/engine.rs`), the result ranker
(`app/src/analyzer.rs`) and the optimizer grid expansion
(`app/src/optimizer.rs`).

Conventions of the embedding:
* `rust_decimal::Decimal` (exact fixed-precision decimal) and `f64` values
  are both modelled as `ℚ`; every arithmetic operation performed by the
  code is exact at the scales exercised here.
* Rust operations that panic (`Decimal` division by zero, out-of-bounds
  indexing) or diverge (a non-advancing `while` loop) are modelled by
  `Option`-valued functions returning `none`.
* `chrono` timestamps are epoch milliseconds, modelled as `ℤ`.
* `HashMap<Symbol, Position>` is modelled as the function
  `Symbol → Option Position`; the insertion-order-dependent iteration of
  the confidence-bucket `HashMap` is normalised to a fixed bucket order
  (no claim depends on map iteration order).
-/

namespace Atlas

/-- Market side of a position or order (`core_types::Side`). -/
inductive Side where
  | long
  | short
deriving DecidableEq, Repr

/-- The side opposite to `s` (used when closing a position). -/
def Side.opposite : Side → Side
  | .long => .short
  | .short => .long

/-- Strategy output directive (`core_types::Signal`).  Confidence is an
`f64` in `[0,1]`, modelled as `ℚ`. -/
inductive Signal where
  | hold
  | close
  | goLong (confidence : ℚ)
  | goShort (confidence : ℚ)
deriving DecidableEq, Repr

/-- The confidence carried by a signal; entry signals carry their
confidence, `Hold` and `Close` carry none, which extracts as `0`. -/
def Signal.confidenceOf : Signal → ℚ
  | .goLong c => c
  | .goShort c => c
  | _ => 0

/-- Opaque string market identifier (`core_types::Symbol`). -/
abbrev Symbol := String

/-- One closed OHLCV bar (`core_types::Kline`).  `openTime`/`closeTime`
are epoch milliseconds; prices are `Decimal`, modelled as `ℚ`. -/
structure Kline where
  openTime : ℤ
  closeTime : ℤ
  openP : ℚ
  high : ℚ
  low : ℚ
  close : ℚ
  volume : ℚ
deriving DecidableEq, Repr

/-- A sized order produced by the risk layer (`core_types::OrderRequest`). -/
structure OrderRequest where
  symbol : Symbol
  side : Side
  quantity : ℚ
  leverage : ℕ
  slPrice : ℚ
  originatingSignal : Signal
deriving DecidableEq, Repr

/-- An open position (`core_types::Position`). -/
structure Position where
  symbol : Symbol
  side : Side
  quantity : ℚ
  entryPrice : ℚ
  leverage : ℕ
  slPrice : ℚ
  entryTime : ℤ
deriving DecidableEq, Repr

/-- Record of a fill (`core_types::Execution`). -/
structure Execution where
  symbol : Symbol
  side : Side
  price : ℚ
  quantity : ℚ
  fee : ℚ
  sourceRequest : OrderRequest
deriving DecidableEq, Repr

/-- Simulated portfolio state (`execution::types::Portfolio`).  The
positions `HashMap` is modelled as a function. -/
structure Portfolio where
  initialCapital : ℚ
  cash : ℚ
  openPositions : Symbol → Option Position

/-- `Portfolio::new`: cash starts at the initial capital, no positions. -/
def Portfolio.new (initialCapital : ℚ) : Portfolio :=
  { initialCapital := initialCapital
    cash := initialCapital
    openPositions := fun _ => none }

/-- Fee/slippage configuration (`execution::types::SimulationSettings`). -/
structure SimulationSettings where
  makerFee : ℚ
  takerFee : ℚ
  slippagePercent : ℚ
deriving DecidableEq, Repr

/-- Errors surfaced by executor and risk layer, carrying the reason
string of the Rust error variants. -/
inductive ExecError where
  | executionFailed (reason : String)
  | vetoed (reason : String)
deriving DecidableEq, Repr

/-- The entry fill price: slippage makes the price worse (higher for a
long entry, lower for a short entry). -/
def entryExecutionPrice (settings : SimulationSettings) (side : Side)
    (currentPrice : ℚ) : ℚ :=
  if side = Side.long then currentPrice * (1 + settings.slippagePercent)
  else currentPrice * (1 - settings.slippagePercent)

/-- The closing fill price: the mirror-image slippage adjustment (worse
price on the closing side). -/
def closeExecutionPrice (settings : SimulationSettings) (side : Side)
    (currentPrice : ℚ) : ℚ :=
  if side = Side.long then currentPrice * (1 - settings.slippagePercent)
  else currentPrice * (1 + settings.slippagePercent)

/-- The fee charged on every fill: `exec_price · quantity · taker_fee`. -/
def fillFee (settings : SimulationSettings) (executionPrice quantity : ℚ) : ℚ :=
  quantity * executionPrice * settings.takerFee

/-- `SimulatedExecutor::process_entry`: slippage-adjusted fill price,
taker fee, rejection when cash cannot cover the fee, otherwise fee is
subtracted and the new position inserted.  Returns the Rust method's
result together with the portfolio state after the call (the Rust method
mutates `self.portfolio` in place). -/
def processEntry (settings : SimulationSettings) (order : OrderRequest)
    (currentPrice : ℚ) (currentTime : ℤ) (p : Portfolio) :
    Except ExecError (Execution × Option Position) × Portfolio :=
  let executionPrice := entryExecutionPrice settings order.side currentPrice
  let fee := fillFee settings executionPrice order.quantity
  if p.cash < fee then
    (Except.error (ExecError.executionFailed "Insufficient cash for fees"), p)
  else
    let newPosition : Position :=
      { symbol := order.symbol
        side := order.side
        quantity := order.quantity
        entryPrice := executionPrice
        leverage := order.leverage
        slPrice := order.slPrice
        entryTime := currentTime }
    let p' : Portfolio :=
      { p with
        cash := p.cash - fee
        openPositions := fun s =>
          if s = order.symbol then some newPosition else p.openPositions s }
    let execution : Execution :=
      { symbol := order.symbol
        side := order.side
        price := executionPrice
        quantity := order.quantity
        fee := fee
        sourceRequest := order }
    (Except.ok (execution, none), p')

/-- `SimulatedExecutor::process_close`: remove the position, apply the
opposite slippage adjustment, realise `pnl − fee` into cash and return
the removed position. -/
def processClose (settings : SimulationSettings) (order : OrderRequest)
    (currentPrice : ℚ) (p : Portfolio) :
    Except ExecError (Execution × Option Position) × Portfolio :=
  match p.openPositions order.symbol with
  | none =>
      (Except.error (ExecError.executionFailed
        ("No open position found for symbol " ++ order.symbol)), p)
  | some openPosition =>
      let executionPrice :=
        closeExecutionPrice settings openPosition.side currentPrice
      let pnl := (executionPrice - openPosition.entryPrice) *
        openPosition.quantity *
        (if openPosition.side = Side.long then 1 else -1)
      let fee := fillFee settings executionPrice openPosition.quantity
      let netPnl := pnl - fee
      let p' : Portfolio :=
        { p with
          cash := p.cash + netPnl
          openPositions := fun s =>
            if s = order.symbol then none else p.openPositions s }
      let execution : Execution :=
        { symbol := order.symbol
          side := order.side
          price := executionPrice
          quantity := openPosition.quantity
          fee := fee
          sourceRequest := order }
      (Except.ok (execution, some openPosition), p')

/-- `SimulatedExecutor::execute`: an order is an entry when no position
is open for its symbol, otherwise a close. -/
def executeOrder (settings : SimulationSettings) (order : OrderRequest)
    (currentPrice : ℚ) (currentTime : ℤ) (p : Portfolio) :
    Except ExecError (Execution × Option Position) × Portfolio :=
  if (p.openPositions order.symbol).isNone then
    processEntry settings order currentPrice currentTime p
  else
    processClose settings order currentPrice p

/-- Risk configuration (`risk::types::SimpleRiskSettings`). -/
structure SimpleRiskSettings where
  riskPerTradePercent : ℚ
  stopLossPercent : ℚ
  minimumConfidenceThreshold : ℚ
  leverage : ℕ
deriving DecidableEq, Repr

/-- `SimpleRiskManager::evaluate` (signature of the `RiskManager` trait
the backtester calls; the implementation ignores the `symbol` argument
and stamps the hard-coded placeholder symbol `"BTCUSDT"` on entry
orders).  Fractional-risk sizing with a fixed percentage stop. -/
def evaluateRisk (settings : SimpleRiskSettings) (signal : Signal)
    (_symbol : Symbol) (portfolioValue : ℚ) (currentKline : Kline)
    (openPosition : Option Position) :
    Except ExecError (Option OrderRequest) :=
  match signal with
  | .hold => Except.ok none
  | .close =>
      match openPosition with
      | some pos =>
          Except.ok (some
            { symbol := pos.symbol
              side := pos.side.opposite
              quantity := pos.quantity
              leverage := pos.leverage
              slPrice := 0
              originatingSignal := signal })
      | none => Except.ok none
  | .goLong confidence => evaluateEntry Side.long confidence
  | .goShort confidence => evaluateEntry Side.short confidence
where
  evaluateEntry (signalSide : Side) (confidence : ℚ) :
      Except ExecError (Option OrderRequest) :=
    if openPosition.isSome then
      Except.error (ExecError.vetoed "A position is already open for this symbol.")
    else if confidence < settings.minimumConfidenceThreshold then
      Except.error (ExecError.vetoed "Signal confidence is below threshold")
    else
      let entryPrice := currentKline.close
      let slPrice :=
        if signalSide = Side.long then
          entryPrice * (1 - settings.stopLossPercent)
        else entryPrice * (1 + settings.stopLossPercent)
      let amountToRisk := portfolioValue * settings.riskPerTradePercent
      let scaledAmountToRisk := amountToRisk * confidence
      let positionSizeQuote := scaledAmountToRisk / settings.stopLossPercent
      let quantityBase := positionSizeQuote / entryPrice
      Except.ok (some
        { symbol := "BTCUSDT"
          side := signalSide
          quantity := quantityBase
          leverage := settings.leverage
          slPrice := slPrice
          originatingSignal := signal })

/-- A closed trade (`analytics::types::Trade`).  Timestamps are epoch
milliseconds; `signal_confidence` is an `f64`, modelled as `ℚ`. -/
structure Trade where
  symbol : Symbol
  side : Side
  entryTime : ℤ
  exitTime : ℤ
  entryPrice : ℚ
  exitPrice : ℚ
  quantity : ℚ
  pnl : ℚ
  fees : ℚ
  signalConfidence : ℚ
  leverage : ℕ
deriving DecidableEq, Repr

/-- One point of the equity curve (`analytics::types::EquityPoint`). -/
structure EquityPoint where
  timestamp : ℤ
  value : ℚ
deriving DecidableEq, Repr

/-- The three fields the engine populates in a per-confidence-bucket
sub-report (the remaining fields of the Rust `PerformanceReport` stay at
their defaults there). -/
structure SubReport where
  totalTrades : ℕ
  netPnlAbsolute : ℚ
  winRate : ℚ
deriving DecidableEq, Repr

/-- `analytics::types::PerformanceReport`.  `f64` metrics are modelled
as `ℚ`; `profit_factor` and `sortino_ratio` can be set to the `f64`
value `+∞`, which is modelled by `none`. -/
structure PerformanceReport where
  netPnlAbsolute : ℚ
  netPnlPercentage : ℚ
  maxDrawdownAbsolute : ℚ
  maxDrawdownPercentage : ℚ
  sharpeRatio : ℚ
  winRate : ℚ
  profitFactor : Option ℚ
  totalTrades : ℕ
  sortinoRatio : Option ℚ
  calmarRatio : ℚ
  avgTradeDurationSecs : ℚ
  expectancy : ℚ
  confidencePerformance : List (String × SubReport)
  larom : ℚ
  fundingPnl : ℚ
  drawdownDurationSecs : ℤ
deriving DecidableEq, Repr

/-- `PerformanceReport::new()` = `Default::default()`: every numeric
field zero (the default `f64` `0.0` for profit factor and sortino is the
finite value `some 0`). -/
def PerformanceReport.new : PerformanceReport :=
  { netPnlAbsolute := 0
    netPnlPercentage := 0
    maxDrawdownAbsolute := 0
    maxDrawdownPercentage := 0
    sharpeRatio := 0
    winRate := 0
    profitFactor := some 0
    totalTrades := 0
    sortinoRatio := some 0
    calmarRatio := 0
    avgTradeDurationSecs := 0
    expectancy := 0
    confidencePerformance := []
    larom := 0
    fundingPnl := 0
    drawdownDurationSecs := 0 }

/-- The confidence bucket key for one trade
(`(trade.signal_confidence * 100.0) as u32` followed by the range
match).  The `f64`-to-`u32` `as` cast saturates below at `0` and
truncates toward zero, which on non-negative values is the floor. -/
def bucketOf (confidence : ℚ) : String :=
  let n : ℤ := if confidence * 100 < 0 then 0 else ⌊confidence * 100⌋
  if n ≤ 59 then "0-59%"
  else if n ≤ 69 then "60-69%"
  else if n ≤ 79 then "70-79%"
  else if n ≤ 89 then "80-89%"
  else if n ≤ 100 then "90-100%"
  else "Other"

/-- The fixed bucket enumeration order used to normalise the `HashMap`
iteration order of the Rust engine (no claim depends on that order). -/
def bucketNames : List String :=
  ["0-59%", "60-69%", "70-79%", "80-89%", "90-100%", "Other"]

/-- Map a fallible step over a list, propagating the first failure —
the panic behaviour of a Rust iteration whose body can panic. -/
def mapOrNone {α β : Type} (f : α → Option β) : List α → Option (List β)
  | [] => some []
  | a :: l =>
      match f a with
      | none => none
      | some b =>
          match mapOrNone f l with
          | none => none
          | some bs => some (b :: bs)

/-- Per-equity-point returns `w[1].value / w[0].value - 1` over
`equity_curve.windows(2)`.  `rust_decimal` division panics when the
divisor is zero, modelled by `none`. -/
def equityReturns (equityCurve : List EquityPoint) : Option (List ℚ) :=
  mapOrNone (fun w =>
    if w.1.value = 0 then none else some (w.2.value / w.1.value - 1))
    (equityCurve.zip equityCurve.tail)

/-- One step of the max-drawdown fold: track the running peak and the
largest `peak − value` seen. -/
def drawdownStep (acc : ℚ × ℚ) (point : EquityPoint) : ℚ × ℚ :=
  let peak := max acc.1 point.value
  (peak, max acc.2 (peak - point.value))

/-- One step of the drawdown-duration fold.  State: (currently in
drawdown, drawdown start time, longest duration in ms, running peak). -/
def drawdownDurationStep (acc : Bool × Option ℤ × ℤ × ℚ)
    (point : EquityPoint) : Bool × Option ℤ × ℤ × ℚ :=
  let (inDrawdown, startTime, maxDur, peak) := acc
  if peak ≤ point.value then
    let maxDur' :=
      if inDrawdown then
        let duration := point.timestamp - startTime.getD 0
        if maxDur < duration then duration else maxDur
      else maxDur
    (false, startTime, maxDur', point.value)
  else if inDrawdown then acc
  else (true, some point.timestamp, maxDur, peak)

/-- `AnalyticsEngine::calculate`.  A faithful embedding of
`crates/analytics/src/engine.rs`: the `Option` result is `none` exactly
where the Rust code panics on a `rust_decimal` division by zero (a zero
equity value used as a return divisor, or a trade with leverage `0` in
the average-margin computation).  `Rat.sqrt` stands in for the `f64`
square root; only its sign (zero exactly on zero variance) is relied
upon. -/
def calculate (initialCapital : ℚ) (trades : List Trade)
    (equityCurve : List EquityPoint) : Option PerformanceReport :=
  if trades.isEmpty then some PerformanceReport.new
  else do
    let totalTrades := trades.length
    let netPnlAbsolute := (trades.map Trade.pnl).sum
    let netPnlPercentage :=
      if 0 < initialCapital then netPnlAbsolute / initialCapital * 100 else 0
    let winningTrades := trades.filter fun t => 0 < t.pnl
    let losingTrades := trades.filter fun t => t.pnl < 0
    let winRate := ((winningTrades.length : ℚ) / (totalTrades : ℚ)) * 100
    let grossProfit := (winningTrades.map Trade.pnl).sum
    let grossLoss := |(losingTrades.map Trade.pnl).sum|
    let profitFactor :=
      if 0 < grossLoss then some (grossProfit / grossLoss) else none
    let dd := equityCurve.foldl drawdownStep (initialCapital, 0)
    let peakEquity := dd.1
    let maxDrawdown := dd.2
    let maxDrawdownPercentage :=
      if 0 < peakEquity then maxDrawdown / peakEquity * 100 else 0
    let sharpeSortino ←
      if 1 < equityCurve.length then do
        let returns ← equityReturns equityCurve
        let meanReturn := returns.sum / (returns.length : ℚ)
        let variance :=
          ((returns.map fun r => (r - meanReturn) ^ 2).sum) / (returns.length : ℚ)
        let stdDev := Rat.sqrt variance
        let sharpe := if 0 < stdDev then meanReturn / stdDev else 0
        let negativeReturns := returns.filter fun r => r < 0
        let downsideDeviation :=
          if negativeReturns.isEmpty then 0
          else Rat.sqrt (((negativeReturns.map fun r => r ^ 2).sum) /
            (negativeReturns.length : ℚ))
        let sortino :=
          if 0 < downsideDeviation then some (meanReturn / downsideDeviation)
          else none
        pure (sharpe, sortino)
      else pure ((0 : ℚ), some (0 : ℚ))
    let calmarRatio :=
      if 0 < maxDrawdownPercentage then netPnlPercentage / maxDrawdownPercentage
      else 0
    let totalDurationSecs : ℤ :=
      (trades.map fun t => (t.exitTime - t.entryTime).tdiv 1000).sum
    let avgTradeDurationSecs := (totalDurationSecs : ℚ) / (trades.length : ℚ)
    let expectancy := netPnlAbsolute / (trades.length : ℚ)
    let confidencePerformance := bucketNames.filterMap fun name =>
      let bucketTrades := trades.filter fun t => bucketOf t.signalConfidence = name
      if bucketTrades.isEmpty then none
      else some (name,
        { totalTrades := bucketTrades.length
          netPnlAbsolute := (bucketTrades.map Trade.pnl).sum
          winRate := (((bucketTrades.filter fun t => 0 < t.pnl).length : ℚ) /
            (bucketTrades.length : ℚ)) * 100 })
    let avgLeverage := ((trades.map fun t => (t.leverage : ℚ)).sum) / (trades.length : ℚ)
    let margins ← mapOrNone (fun t =>
      if (t.leverage : ℚ) = 0 then none
      else some (t.entryPrice * t.quantity / (t.leverage : ℚ))) trades
    let avgMarginUsed := margins.sum / (trades.length : ℚ)
    let larom :=
      if 0 < avgMarginUsed ∧ 0 < avgLeverage then
        netPnlAbsolute / (avgMarginUsed * avgLeverage)
      else 0
    let ddDur := equityCurve.foldl drawdownDurationStep
      (false, none, 0, initialCapital)
    let drawdownDurationSecs := ddDur.2.2.1.tdiv 1000
    pure
      { netPnlAbsolute := netPnlAbsolute
        netPnlPercentage := netPnlPercentage
        maxDrawdownAbsolute := maxDrawdown
        maxDrawdownPercentage := maxDrawdownPercentage
        sharpeRatio := sharpeSortino.1
        winRate := winRate
        profitFactor := profitFactor
        totalTrades := totalTrades
        sortinoRatio := sharpeSortino.2
        calmarRatio := calmarRatio
        avgTradeDurationSecs := avgTradeDurationSecs
        expectancy := expectancy
        confidencePerformance := confidencePerformance
        larom := larom
        fundingPnl := 0
        drawdownDurationSecs := drawdownDurationSecs }

/-- `KLINE_HISTORY_SIZE` in `crates/backtester/src/lib.rs`: the warmup
window; the driver's loop runs over indices `100 ≤ i < klines.len()`. -/
def klineHistorySize : ℕ := 100

/-- Placeholder bar used to model slice indexing; the driver only
indexes inside the bounds `i - 100 ≤ j < klines.length`. -/
def dummyKline : Kline :=
  { openTime := 0, closeTime := 0, openP := 0, high := 0, low := 0
    close := 0, volume := 0 }

/-- The components a `Backtester` owns for one run, with the strategy
kept abstract: any stateful bar consumer `σ → history → Signal × σ`
(`Box<dyn Strategy>` in the source).  The risk manager is the
`SimpleRiskManager` and the executor the `SimulatedExecutor`, as wired
by the application. -/
structure BacktestConfig (σ : Type) where
  symbol : Symbol
  strategyAssess : σ → List Kline → Signal × σ
  riskSettings : SimpleRiskSettings
  simSettings : SimulationSettings

/-- Mutable state of one backtest run: the strategy state, the portfolio
and the `BacktestLogger` fields (`trades`, `equity_points`,
`initial_equity`). -/
structure RunState (σ : Type) where
  stratState : σ
  portfolio : Portfolio
  trades : List Trade
  equityPoints : List EquityPoint
  loggerInitialEquity : ℚ

/-- `BacktestLogger::record_equity`: append one equity point. -/
def recordEquity {σ : Type} (st : RunState σ) (timestamp : ℤ) (value : ℚ) :
    RunState σ :=
  { st with equityPoints := st.equityPoints ++ [⟨timestamp, value⟩] }

/-- `BacktestLogger::current_equity`: the logger's stub simply returns
the initial equity it was constructed with. -/
def currentEquity {σ : Type} (st : RunState σ) : ℚ :=
  st.loggerInitialEquity

/-- `BacktestLogger::record_trade`: push the trade, then append an
equity point at the passed timestamp valued at `current_equity()`. -/
def recordTrade {σ : Type} (st : RunState σ) (trade : Trade)
    (timestamp : ℤ) : RunState σ :=
  recordEquity { st with trades := st.trades ++ [trade] } timestamp
    (currentEquity st)

/-- What happened while processing one bar: how many times the strategy
was assessed, how many times the risk manager was consulted, and every
executor invocation as (order, reference price). -/
structure BarEvents where
  strategyCalls : ℕ
  riskCalls : ℕ
  execs : List (OrderRequest × ℚ)
deriving DecidableEq, Repr

/-- Steps 2–4 of the per-bar loop of `Backtester::run` (strategy
assessment, risk evaluation, execution), reached when no stop-loss
fired on this bar. -/
def strategyPhase {σ : Type} (cfg : BacktestConfig σ) (klines : List Kline)
    (i : ℕ) (st : RunState σ) : RunState σ × BarEvents :=
  let historySlice := (klines.drop (i - klineHistorySize)).take klineHistorySize
  let assessed := cfg.strategyAssess st.stratState historySlice
  let signal := assessed.1
  let st := { st with stratState := assessed.2 }
  if signal = Signal.hold then (st, ⟨1, 0, []⟩)
  else
    let portfolioValue := st.portfolio.cash
    let openPosition := st.portfolio.openPositions cfg.symbol
    let calculationKline := klines.getD (i - 1) dummyKline
    match evaluateRisk cfg.riskSettings signal cfg.symbol portfolioValue
        calculationKline openPosition with
    | Except.ok (some orderRequest) =>
        let r := executeOrder cfg.simSettings orderRequest
          calculationKline.close calculationKline.openTime st.portfolio
        let st := { st with portfolio := r.2 }
        let events : BarEvents := ⟨1, 1, [(orderRequest, calculationKline.close)]⟩
        match r.1 with
        | Except.ok (execution, some closedPos) =>
            let trade : Trade :=
              { symbol := closedPos.symbol
                side := execution.side
                entryTime := closedPos.entryTime
                exitTime := calculationKline.openTime
                entryPrice := closedPos.entryPrice
                exitPrice := execution.price
                quantity := execution.quantity
                pnl := 0
                fees := execution.fee
                signalConfidence := 0
                leverage := closedPos.leverage }
            (recordTrade st trade calculationKline.openTime, events)
        | Except.ok (_, none) => (st, events)
        | Except.error _ => (st, events)
    | Except.ok none => (st, ⟨1, 1, []⟩)
    | Except.error _ => (st, ⟨1, 1, []⟩)

/-- The body of the per-bar loop of `Backtester::run`: record equity,
check the stop-loss, and otherwise fall through to the strategy phase.
Returns the updated run state together with the bar's events. -/
def processBar {σ : Type} (cfg : BacktestConfig σ) (klines : List Kline)
    (i : ℕ) (st : RunState σ) : RunState σ × BarEvents :=
  let currentKline := klines.getD i dummyKline
  let st := recordEquity st currentKline.openTime st.portfolio.cash
  match st.portfolio.openPositions cfg.symbol with
  | some openPosition =>
      let stopTriggered : Bool :=
        if openPosition.side = Side.long then
          decide (currentKline.low ≤ openPosition.slPrice)
        else decide (openPosition.slPrice ≤ currentKline.high)
      if stopTriggered then
        let closeOrder : OrderRequest :=
          { symbol := openPosition.symbol
            side := openPosition.side.opposite
            quantity := openPosition.quantity
            leverage := openPosition.leverage
            slPrice := 0
            originatingSignal := Signal.close }
        let r := executeOrder cfg.simSettings closeOrder openPosition.slPrice
          currentKline.openTime st.portfolio
        let st := { st with portfolio := r.2 }
        let events : BarEvents := ⟨0, 0, [(closeOrder, openPosition.slPrice)]⟩
        match r.1 with
        | Except.ok (execution, some closedPos) =>
            let trade : Trade :=
              { symbol := closedPos.symbol
                side := execution.side
                entryTime := closedPos.entryTime
                exitTime := currentKline.openTime
                entryPrice := closedPos.entryPrice
                exitPrice := execution.price
                quantity := execution.quantity
                pnl := 0
                fees := execution.fee
                signalConfidence := 0
                leverage := closedPos.leverage }
            (recordTrade st trade currentKline.openTime, events)
        | Except.ok (_, none) => (st, events)
        | Except.error _ => (st, events)
      else strategyPhase cfg klines i st
  | none => strategyPhase cfg klines i st

/-- The indices the driver's loop visits:
`for i in KLINE_HISTORY_SIZE..klines.len()`. -/
def processedIndices (klines : List Kline) : List ℕ :=
  (List.range klines.length).drop klineHistorySize

/-- `Backtester::new` + `Backtester::run` up to the final analytics
call: portfolio and logger are created with the hard-coded initial
capital of 10 000, then every index from 100 on is processed in order. -/
def runBacktest {σ : Type} (cfg : BacktestConfig σ) (s0 : σ)
    (klines : List Kline) : RunState σ :=
  let init : RunState σ :=
    { stratState := s0
      portfolio := Portfolio.new 10000
      trades := []
      equityPoints := []
      loggerInitialEquity := 10000 }
  (processedIndices klines).foldl (fun st i => (processBar cfg klines i st).1) init

/-- The full `Backtester::run` result
`(PerformanceReport, Vec<Trade>, Vec<EquityPoint>)`. -/
def backtestRun {σ : Type} (cfg : BacktestConfig σ) (s0 : σ)
    (klines : List Kline) :
    Option PerformanceReport × List Trade × List EquityPoint :=
  let st := runBacktest cfg s0 klines
  (calculate st.portfolio.initialCapital st.trades st.equityPoints,
    st.trades, st.equityPoints)

/-- `database::FullReport` as consumed by the ranker (the free-form
`parameters` blob is never consulted by filtering or scoring and is
omitted). -/
structure FullReport where
  runId : ℤ
  report : PerformanceReport
deriving DecidableEq, Repr

/-- `analyzer::RankedReport`. -/
structure RankedReport where
  score : ℚ
  report : FullReport
deriving DecidableEq, Repr

/-- `MINIMUM_TRADES_THRESHOLD` in `app/src/analyzer.rs`. -/
def minimumTradesThreshold : ℕ := 30

/-- `analyzer::calculate_score`: capped profit factor and Sharpe, the
negative drawdown weight, and the uncapped Calmar term.  The `f64`
`min(+∞, 5.0)` is `5.0`, hence the `none` branch. -/
def calculateScore (report : PerformanceReport) : ℚ :=
  let cappedProfitFactor :=
    match report.profitFactor with
    | none => (5 : ℚ)
    | some q => min q 5
  let cappedSharpe := min report.sharpeRatio 5
  let normalizedDrawdown := report.maxDrawdownPercentage / 100
  cappedProfitFactor * 40 + cappedSharpe * 30 +
    normalizedDrawdown * (-35) + report.calmarRatio * 15

/-- The comparison passed to the sort:
`b.score.partial_cmp(&a.score)` orders by descending score; on rational
scores the comparison is total and ties compare equal. -/
def rankerLe (a b : RankedReport) : Bool :=
  decide (b.score ≤ a.score)

/-- The `ranked_reports` vector before sorting: drop reports with fewer
than `MINIMUM_TRADES_THRESHOLD` trades and attach each survivor's
score, in input order. -/
def rankerSurvivors (reports : List FullReport) : List RankedReport :=
  reports.filterMap fun fullReport =>
    if fullReport.report.totalTrades < minimumTradesThreshold then none
    else some { score := calculateScore fullReport.report, report := fullReport }

/-- `analyzer::analyze_and_rank_results` on an already-fetched report
list: drop reports with fewer than 30 trades, attach the score, then
stable-sort by descending score (Rust's `sort_by` is a stable sort,
modelled by `List.mergeSort`). -/
def analyzeAndRank (reports : List FullReport) : List RankedReport :=
  (rankerSurvivors reports).mergeSort rankerLe

/-- A numeric TOML value as classified by `expand_value`
(`as_integer()` versus `as_float()`). -/
inductive NumV where
  | i (z : ℤ)
  | f (q : ℚ)
deriving DecidableEq, Repr

/-- The numeric value, as the `f64` the Rust code converts to. -/
def NumV.toRat : NumV → ℚ
  | .i z => (z : ℚ)
  | .f q => q

/-- Whether the TOML value is of integer type (`as_integer().is_some()`). -/
def NumV.isInt : NumV → Bool
  | .i _ => true
  | .f _ => false

/-- A parameter entry of the optimizer grid: a fixed scalar, or a
`{start, end, step?}` range table with numeric bounds. -/
inductive PValue where
  | int (z : ℤ)
  | float (q : ℚ)
  | rangeTbl (start stop : NumV) (step : Option NumV)
deriving DecidableEq, Repr

/-- The `1e-8` slack added to the range end. -/
def rangeEps : ℚ := 1 / 100000000

/-- The step value: the `step` entry as `f64`, defaulting to `1.0`. -/
def stepOf : Option NumV → ℚ
  | none => 1
  | some v => v.toRat

/-- `v as i64`: `f64`-to-integer conversion truncates toward zero. -/
def ratTrunc (q : ℚ) : ℤ :=
  q.num.tdiv (q.den : ℤ)

/-- The value pushed per iteration: `Value::Integer(v as i64)` when both
bounds are TOML integers and the step is whole, else `Value::Float(v)`. -/
def rangePush (isInt : Bool) (v : ℚ) : PValue :=
  if isInt then PValue.int (ratTrunc v) else PValue.float v

/-- The generation loop `while v <= end + 1e-8 { push; v += step }`,
with explicit fuel; `rangeFuel` below supplies enough fuel for every
terminating execution. -/
def rangeLoop (isInt : Bool) (stopV step : ℚ) : ℕ → ℚ → List PValue
  | 0, _ => []
  | fuel + 1, v =>
      if v ≤ stopV + rangeEps then
        rangePush isInt v :: rangeLoop isInt stopV step fuel (v + step)
      else []

/-- Number of iterations of the generation loop for a positive step:
the count of `k ≥ 0` with `start + k·step ≤ stop + 1e-8`. -/
def rangeFuel (s stopV step : ℚ) : ℕ :=
  (⌊(stopV + rangeEps - s) / step⌋ + 1).toNat

/-- `optimizer::expand_value`: a range table expands through the
generation loop; with a non-positive step the Rust loop either never
runs (start beyond the slack-adjusted end) or never terminates
(modelled by `none`); every other value expands to itself. -/
def expandValue : PValue → Option (List PValue)
  | PValue.rangeTbl start stop step =>
      let stepVal := stepOf step
      let s := start.toRat
      let e := stop.toRat
      let isInt := start.isInt && stop.isInt && decide (stepVal = ⌊stepVal⌋)
      if 0 < stepVal then
        some (rangeLoop isInt e stepVal (rangeFuel s e stepVal) s)
      else if s ≤ e + rangeEps then none
      else some []
  | v => some [v]

/-- The index-increment of the combination enumerator: bump the last
index; on overflow reset it to zero and carry leftward; `none` when
every index wraps (the loop's terminating `idx == 0 && indices[0] == 0`
condition).  The state pairs each parameter's value vector with its
current index. -/
def bumpIndices : List (List PValue × ℕ) → Option (List (List PValue × ℕ))
  | [] => none
  | (vs, i) :: rest =>
      match bumpIndices rest with
      | some rest' => some ((vs, i) :: rest')
      | none =>
          if i + 1 < vs.length then
            some ((vs, i + 1) :: rest.map fun p => (p.1, 0))
          else none

/-- `value_lists[i][indices[i]]` for every parameter (the enumerator
only evaluates this at in-bounds indices). -/
def selectValues (state : List (List PValue × ℕ)) : List PValue :=
  state.map fun p => p.1.getD p.2 (PValue.int 0)

/-- The enumeration loop: emit the table for the current index vector,
then advance; stop when the indices wrap around.  Fuel-driven; the
caller passes the grid size, which is exactly the number of
iterations. -/
def enumLoop (keys : List String) :
    ℕ → List (List PValue × ℕ) → List (List (String × PValue))
  | 0, _ => []
  | fuel + 1, state =>
      (keys.zip (selectValues state)) ::
        match bumpIndices state with
        | some state' => enumLoop keys fuel state'
        | none => []

/-- The cartesian-product size `Π_i |values_i|`. -/
def gridSize (valueLists : List (List PValue)) : ℕ :=
  (valueLists.map List.length).prod

/-- The combination-building part of
`optimizer::generate_generic_parameter_sets`: `none` models the panics
on an empty parameter list (`indices[0]` on an empty `Vec`) and on any
empty value vector (`value_lists[i][0]` out of bounds). -/
def enumTables (keys : List String) (valueLists : List (List PValue)) :
    Option (List (List (String × PValue))) :=
  if valueLists.isEmpty then none
  else if valueLists.any List.isEmpty then none
  else some (enumLoop keys (gridSize valueLists)
    (valueLists.map fun vs => (vs, 0)))

/-- `optimizer::generate_generic_parameter_sets` up to the final
strategy-specific deserialization: expand every parameter, then
enumerate all combinations. -/
def generateParameterSets (params : List (String × PValue)) :
    Option (List (List (String × PValue))) := do
  let valueLists ← mapOrNone (fun p => expandValue p.2) params
  enumTables (params.map Prod.fst) valueLists

/-- The per-parameter sizes product for an enumerator state. -/
def stateSizesProd (state : List (List PValue × ℕ)) : ℕ :=
  (state.map fun p => p.1.length).prod

/-- Mixed-radix rank of an index vector (last index least significant):
the number of combinations emitted before this one. -/
def rankOf : List (List PValue × ℕ) → ℕ
  | [] => 0
  | (_, i) :: rest => i * stateSizesProd rest + rankOf rest

/-- Every index is in bounds for its value vector. -/
def ValidState (state : List (List PValue × ℕ)) : Prop :=
  ∀ p ∈ state, p.2 < p.1.length

/-- A strategy that always answers `GoLong` with full confidence,
driving the forced-entry scenario. -/
def constantLongStrategy : Unit → List Kline → Signal × Unit :=
  fun s _ => (Signal.goLong 1, s)

/-- The forced-long scenario configuration (spec scenarios 3–4):
`risk_per_trade = 0.01`, `stop_loss = 0.05`, zero fees and slippage. -/
def scenarioCfg : BacktestConfig Unit :=
  { symbol := "BTCUSDT"
    strategyAssess := constantLongStrategy
    riskSettings :=
      { riskPerTradePercent := 1/100
        stopLossPercent := 1/20
        minimumConfidenceThreshold := 0
        leverage := 1 }
    simSettings := { makerFee := 0, takerFee := 0, slippagePercent := 0 } }

/-- A flat bar at price 100 with `open_time = k` ms. -/
def flatBar (k : ℕ) : Kline :=
  { openTime := (k : ℤ), closeTime := (k : ℤ), openP := 100, high := 100,
    low := 100, close := 100, volume := 0 }

/-- The stop-out bar: low 94 breaches the stop at 95. -/
def stopBar : Kline :=
  { openTime := 101, closeTime := 101, openP := 100, high := 100,
    low := 94, close := 94, volume := 0 }

/-- 101 flat bars (warmup plus the entry bar) followed by the stop-out
bar: the entry executes on index 100 at close 100 with quantity 20 and
stop 95, and index 101 stops out at 95. -/
def scenarioKlines : List Kline :=
  (List.range 101).map flatBar ++ [stopBar]

/-- The trade the driver records in the scenario. -/
def scenarioTrade : Trade :=
  { symbol := "BTCUSDT", side := Side.short, entryTime := 99,
    exitTime := 101, entryPrice := 100, exitPrice := 95, quantity := 20,
    pnl := 0, fees := 0, signalConfidence := 0, leverage := 1 }

/-- The position the scenario entry opens: long 20 units at 100 with
stop 95, entered at the reference bar's timestamp 99. -/
def scenarioPosition : Position :=
  { symbol := "BTCUSDT", side := Side.long, quantity := 20,
    entryPrice := 100, leverage := 1, slPrice := 95, entryTime := 99 }

/-- The synthesized stop-out close order for `scenarioPosition`. -/
def scenarioCloseOrder : OrderRequest :=
  { symbol := "BTCUSDT", side := Side.short, quantity := 20,
    leverage := 1, slPrice := 0, originatingSignal := Signal.close }

/-- A trade with no special properties, used to exercise the analytics
engine on a non-empty trade list. -/
def plainTrade : Trade :=
  { symbol := "BTCUSDT", side := Side.long, entryTime := 0, exitTime := 1000,
    entryPrice := 100, exitPrice := 101, quantity := 1, pnl := 1, fees := 0,
    signalConfidence := 1/2, leverage := 1 }

/-- The cross-symbol configuration: the backtester trades `"ETHUSDT"`
while the risk layer stamps its hard-coded `"BTCUSDT"` on every entry
order, so a second approved entry signal is routed to `process_close`. -/
def crossCfg : BacktestConfig Unit :=
  { symbol := "ETHUSDT"
    strategyAssess := constantLongStrategy
    riskSettings :=
      { riskPerTradePercent := 1/100
        stopLossPercent := 1/20
        minimumConfidenceThreshold := 0
        leverage := 1 }
    simSettings := { makerFee := 0, takerFee := 0, slippagePercent := 0 } }

/-- 102 flat bars at close 100 for the cross-symbol run (no stop is ever
consulted: the position sits under a key the driver never checks). -/
def crossKlines : List Kline :=
  (List.range 102).map flatBar

/-- The initial run state `Backtester::new` builds (capital 10 000). -/
def crossInit : RunState Unit :=
  { stratState := ()
    portfolio := Portfolio.new 10000
    trades := []
    equityPoints := []
    loggerInitialEquity := 10000 }

/-! ### Theorems -/

set_option maxRecDepth 8000

/-- C3: for an entry signal (GoLong or GoShort) whose confidence meets
the minimum threshold, evaluated with no open position, the risk
evaluator returns an order with `sl_price = close · (1 ∓ stop_loss_percent)`
(minus for long, plus for short),
`quantity = portfolio_value · risk_per_trade_percent · confidence / stop_loss_percent / close`,
and the configured leverage.  The positivity hypotheses mark the region
in which the Rust `Decimal` divisions are defined. -/
theorem simple_risk_entry_order_spec (settings : SimpleRiskSettings)
    (symbol : Symbol) (portfolioValue : ℚ) (k : Kline) (confidence : ℚ)
    (hconf : settings.minimumConfidenceThreshold ≤ confidence)
    (hsl : 0 < settings.stopLossPercent) (hclose : 0 < k.close) :
    evaluateRisk settings (Signal.goLong confidence) symbol portfolioValue
        k none =
      Except.ok (some
        { symbol := "BTCUSDT"
          side := Side.long
          quantity := portfolioValue * settings.riskPerTradePercent *
            confidence / settings.stopLossPercent / k.close
          leverage := settings.leverage
          slPrice := k.close * (1 - settings.stopLossPercent)
          originatingSignal := Signal.goLong confidence }) ∧
    evaluateRisk settings (Signal.goShort confidence) symbol portfolioValue
        k none =
      Except.ok (some
        { symbol := "BTCUSDT"
          side := Side.short
          quantity := portfolioValue * settings.riskPerTradePercent *
            confidence / settings.stopLossPercent / k.close
          leverage := settings.leverage
          slPrice := k.close * (1 + settings.stopLossPercent)
          originatingSignal := Signal.goShort confidence }) := by
  constructor <;>
    simp [evaluateRisk, evaluateRisk.evaluateEntry, not_lt.mpr hconf]

/-- Witness for `simple_risk_entry_order_spec` at concrete settings. -/
theorem simple_risk_entry_order_spec_witness :
    evaluateRisk ⟨1/100, 1/20, 1/2, 3⟩ (Signal.goLong 1) "ETHUSDT" 10000
        { openTime := 0, closeTime := 0, openP := 100, high := 100,
          low := 100, close := 100, volume := 0 } none =
      Except.ok (some
        { symbol := "BTCUSDT"
          side := Side.long
          quantity := 10000 * (1/100) * 1 / (1/20) / 100
          leverage := 3
          slPrice := 100 * (1 - 1/20)
          originatingSignal := Signal.goLong 1 }) :=
  (simple_risk_entry_order_spec ⟨1/100, 1/20, 1/2, 3⟩ "ETHUSDT" 10000
    { openTime := 0, closeTime := 0, openP := 100, high := 100,
      low := 100, close := 100, volume := 0 } 1
    (by norm_num) (by norm_num) (by norm_num)).1

/-- C6: every approved entry order carries the hard-coded placeholder
symbol `"BTCUSDT"`, whatever symbol and market data were evaluated,
while a closing order inherits the closed position's symbol. -/
theorem risk_entry_symbol_constant (settings : SimpleRiskSettings)
    (symbol : Symbol) (portfolioValue : ℚ) (k : Kline)
    (pos : Option Position) :
    (∀ c o, evaluateRisk settings (Signal.goLong c) symbol portfolioValue
        k pos = Except.ok (some o) → o.symbol = "BTCUSDT") ∧
    (∀ c o, evaluateRisk settings (Signal.goShort c) symbol portfolioValue
        k pos = Except.ok (some o) → o.symbol = "BTCUSDT") ∧
    (∀ p o, evaluateRisk settings Signal.close symbol portfolioValue
        k (some p) = Except.ok (some o) → o.symbol = p.symbol) := by
  refine ⟨fun c o h => ?_, fun c o h => ?_, fun p o h => ?_⟩ <;>
    [skip; skip;
      (simp only [evaluateRisk] at h; cases h; rfl)] <;>
  · simp only [evaluateRisk, evaluateRisk.evaluateEntry] at h
    split at h
    · cases h
    · split at h
      · cases h
      · cases h; rfl

/-- Witness for `risk_entry_symbol_constant` at a concrete input. -/
theorem risk_entry_symbol_constant_witness :
    evaluateRisk ⟨1/100, 1/20, 0, 2⟩ (Signal.goShort 1) "SOLUSDT" 500
        { openTime := 0, closeTime := 0, openP := 10, high := 10,
          low := 10, close := 10, volume := 0 } none =
      Except.ok (some
        { symbol := "BTCUSDT"
          side := Side.short
          quantity := 500 * (1/100) * 1 / (1/20) / 10
          leverage := 2
          slPrice := 10 * (1 + 1/20)
          originatingSignal := Signal.goShort 1 }) ∧
    ({ symbol := "BTCUSDT"
       side := Side.short
       quantity := 500 * (1/100) * 1 / (1/20) / 10
       leverage := 2
       slPrice := 10 * (1 + 1/20)
       originatingSignal := Signal.goShort 1 } : OrderRequest).symbol =
      "BTCUSDT" := by
  constructor
  · rfl
  · exact (risk_entry_symbol_constant ⟨1/100, 1/20, 0, 2⟩ "SOLUSDT" 500
      { openTime := 0, closeTime := 0, openP := 10, high := 10,
        low := 10, close := 10, volume := 0 } none).2.1 1 _ (by rfl)

/-- C4: on the entry path (no open position for the order's symbol) the
simulated executor fails exactly when `cash < fee`, where
`fee = exec_price · quantity · taker_fee` and `exec_price` is the
slippage-adjusted price; on failure the portfolio is unchanged, on
success cash decreases by exactly the fee and exactly one position (the
new one, under the order's symbol) is inserted. -/
theorem simulated_entry_cash_fee_spec (settings : SimulationSettings)
    (order : OrderRequest) (price : ℚ) (time : ℤ) (p : Portfolio)
    (hnone : p.openPositions order.symbol = none) :
    ((∃ e, (executeOrder settings order price time p).1 = Except.error e) ↔
      p.cash < fillFee settings
        (entryExecutionPrice settings order.side price) order.quantity) ∧
    (p.cash < fillFee settings
        (entryExecutionPrice settings order.side price) order.quantity →
      (executeOrder settings order price time p).2 = p) ∧
    (¬ p.cash < fillFee settings
        (entryExecutionPrice settings order.side price) order.quantity →
      (executeOrder settings order price time p).2.cash =
        p.cash - fillFee settings
          (entryExecutionPrice settings order.side price) order.quantity ∧
      (executeOrder settings order price time p).2.openPositions
          order.symbol =
        some
          { symbol := order.symbol
            side := order.side
            quantity := order.quantity
            entryPrice := entryExecutionPrice settings order.side price
            leverage := order.leverage
            slPrice := order.slPrice
            entryTime := time } ∧
      ∀ s, s ≠ order.symbol →
        (executeOrder settings order price time p).2.openPositions s =
          p.openPositions s) := by
  simp only [executeOrder, hnone, Option.isNone_none, if_true, processEntry]
  by_cases hc : p.cash < fillFee settings
      (entryExecutionPrice settings order.side price) order.quantity
  · rw [if_pos hc]
    exact ⟨⟨fun _ => hc, fun _ => ⟨_, rfl⟩⟩, fun _ => rfl,
      fun h => absurd hc h⟩
  · rw [if_neg hc]
    refine ⟨?_, fun h => absurd h hc,
      fun _ => ⟨rfl, by simp, fun s hs => by simp [hs]⟩⟩
    constructor
    · rintro ⟨e, he⟩
      cases he
    · exact fun h => absurd h hc

/-- Witness for `simulated_entry_cash_fee_spec`: a concrete entry whose
fee exceeds the available cash is rejected and leaves the portfolio
untouched. -/
theorem simulated_entry_cash_fee_spec_witness :
    (∃ e, (executeOrder ⟨0, 1/2, 0⟩
        { symbol := "BTCUSDT", side := Side.long, quantity := 10,
          leverage := 1, slPrice := 90, originatingSignal := Signal.goLong 1 }
        100 7 (Portfolio.new 50)).1 = Except.error e) ∧
    (executeOrder ⟨0, 1/2, 0⟩
        { symbol := "BTCUSDT", side := Side.long, quantity := 10,
          leverage := 1, slPrice := 90, originatingSignal := Signal.goLong 1 }
        100 7 (Portfolio.new 50)).2 = Portfolio.new 50 := by
  have h := simulated_entry_cash_fee_spec ⟨0, 1/2, 0⟩
    { symbol := "BTCUSDT", side := Side.long, quantity := 10,
      leverage := 1, slPrice := 90, originatingSignal := Signal.goLong 1 }
    100 7 (Portfolio.new 50) rfl
  have hlt : (Portfolio.new 50).cash < fillFee ⟨0, 1/2, 0⟩
      (entryExecutionPrice ⟨0, 1/2, 0⟩ Side.long 100) 10 := by
    norm_num [Portfolio.new, fillFee, entryExecutionPrice]
  exact ⟨h.1.mpr hlt, h.2.1 hlt⟩

/-- C5: on a bar where a position is open and the stop-loss check fires
(`low ≤ sl` for a long, `high ≥ sl` for a short), the driver performs
exactly one executor call — a full-quantity close order at the
reference price `sl_price` (not any bar OHLC) — the position is
removed, one trade (filled at the slippage-adjusted `sl_price`) is
recorded, and neither the strategy nor the risk manager is consulted on
that bar.  `hsym` is the driver invariant that the stored position
carries the key it is stored under. -/
theorem stop_loss_bar_only_stop_out {σ : Type} (cfg : BacktestConfig σ)
    (klines : List Kline) (i : ℕ) (st : RunState σ) (pos : Position)
    (hpos : st.portfolio.openPositions cfg.symbol = some pos)
    (hsym : pos.symbol = cfg.symbol)
    (htrig : (if pos.side = Side.long
      then decide ((klines.getD i dummyKline).low ≤ pos.slPrice)
      else decide (pos.slPrice ≤ (klines.getD i dummyKline).high)) = true) :
    (processBar cfg klines i st).2 =
      ⟨0, 0, [(({ symbol := pos.symbol
                  side := pos.side.opposite
                  quantity := pos.quantity
                  leverage := pos.leverage
                  slPrice := 0
                  originatingSignal := Signal.close } : OrderRequest),
        pos.slPrice)]⟩ ∧
    (processBar cfg klines i st).1.portfolio.openPositions cfg.symbol =
      none ∧
    (processBar cfg klines i st).1.trades = st.trades ++
      [{ symbol := pos.symbol
         side := pos.side.opposite
         entryTime := pos.entryTime
         exitTime := (klines.getD i dummyKline).openTime
         entryPrice := pos.entryPrice
         exitPrice := closeExecutionPrice cfg.simSettings pos.side pos.slPrice
         quantity := pos.quantity
         pnl := 0
         fees := fillFee cfg.simSettings
           (closeExecutionPrice cfg.simSettings pos.side pos.slPrice)
           pos.quantity
         signalConfidence := 0
         leverage := pos.leverage }] := by
  unfold processBar
  simp only [recordEquity, hpos, htrig, if_true, executeOrder, hsym,
    Option.isNone_some, Bool.false_eq_true, if_false, processClose,
    recordTrade, currentEquity]
  exact ⟨trivial, by simp, trivial⟩

/-- Witness for `stop_loss_bar_only_stop_out` at a concrete open
position and a bar whose low breaches the stop. -/
theorem stop_loss_bar_only_stop_out_witness :
    (processBar
      ({ symbol := "BTCUSDT"
         strategyAssess := fun (s : Unit) _ => (Signal.hold, s)
         riskSettings := ⟨1/100, 1/20, 0, 1⟩
         simSettings := ⟨0, 0, 0⟩ } : BacktestConfig Unit)
      [] 0
      { stratState := ()
        portfolio :=
          { initialCapital := 10000
            cash := 10000
            openPositions := fun s =>
              if s = "BTCUSDT" then
                some { symbol := "BTCUSDT", side := Side.long, quantity := 20,
                       entryPrice := 100, leverage := 1, slPrice := 95,
                       entryTime := 99 }
              else none }
        trades := []
        equityPoints := []
        loggerInitialEquity := 10000 }).1.portfolio.openPositions
      "BTCUSDT" = none :=
  (stop_loss_bar_only_stop_out
    ({ symbol := "BTCUSDT"
       strategyAssess := fun (s : Unit) _ => (Signal.hold, s)
       riskSettings := ⟨1/100, 1/20, 0, 1⟩
       simSettings := ⟨0, 0, 0⟩ } : BacktestConfig Unit)
    [] 0
    { stratState := ()
      portfolio :=
        { initialCapital := 10000
          cash := 10000
          openPositions := fun s =>
            if s = "BTCUSDT" then
              some { symbol := "BTCUSDT", side := Side.long, quantity := 20,
                     entryPrice := 100, leverage := 1, slPrice := 95,
                     entryTime := 99 }
            else none }
      trades := []
      equityPoints := []
      loggerInitialEquity := 10000 }
    { symbol := "BTCUSDT", side := Side.long, quantity := 20,
      entryPrice := 100, leverage := 1, slPrice := 95, entryTime := 99 }
    (by simp) rfl (by decide)).2.1

/-- Every bar either leaves the trade log unchanged or appends exactly
one trade, and any appended trade carries `signal_confidence = 0` (both
the stop-out path and the strategy-close path write the literal `0.0`,
with the source's `TODO: Get from signal if available` comment). -/
theorem processBar_trades_cases {σ : Type} (cfg : BacktestConfig σ)
    (klines : List Kline) (i : ℕ) (st : RunState σ) :
    (processBar cfg klines i st).1.trades = st.trades ∨
    ∃ tr, (processBar cfg klines i st).1.trades = st.trades ++ [tr] ∧
      tr.signalConfidence = 0 := by
  unfold processBar strategyPhase
  dsimp only
  repeat' split
  all_goals first
    | exact Or.inl rfl
    | exact Or.inr ⟨_, rfl, rfl⟩

/-- Trade-log invariant transported through the driver's fold. -/
theorem foldl_trades_zero_confidence {σ : Type} (cfg : BacktestConfig σ)
    (klines : List Kline) (idxs : List ℕ) (st : RunState σ)
    (h : ∀ t ∈ st.trades, t.signalConfidence = 0) :
    ∀ t ∈ (idxs.foldl (fun s i => (processBar cfg klines i s).1) st).trades,
      t.signalConfidence = 0 := by
  induction idxs generalizing st with
  | nil => simpa using h
  | cons i rest ih =>
      intro t ht
      refine ih ((processBar cfg klines i st).1) ?_ t ht
      intro u hu
      rcases processBar_trades_cases cfg klines i st with hcase | ⟨tr, heq, hz⟩
      · exact h u (hcase ▸ hu)
      · rw [heq] at hu
        rcases List.mem_append.1 hu with hmem | hmem
        · exact h u hmem
        · rw [List.mem_singleton.1 hmem]
          exact hz

/-- C7 counterexample: because entry orders carry the hard-coded symbol
`"BTCUSDT"`, a driver configured for `"ETHUSDT"` has its second approved
`GoLong` order routed into `process_close` — a strategy-driven closing
fill whose originating signal is `GoLong` with confidence `1` — yet the
recorded trade carries `signal_confidence = 0`, so the recorded value is
not the closing order's originating-signal confidence. -/
theorem cross_symbol_close_records_zero_confidence :
    (runBacktest crossCfg () crossKlines).trades.map
      Trade.signalConfidence = [0] ∧
    ((processBar crossCfg crossKlines 101
      (processBar crossCfg crossKlines 100 crossInit).1).2.execs.map
        fun e => e.1.originatingSignal) = [Signal.goLong 1] ∧
    ((processBar crossCfg crossKlines 101
      (processBar crossCfg crossKlines 100 crossInit).1).1.trades.map
        Trade.signalConfidence) = [0] ∧
    (processBar crossCfg crossKlines 100 crossInit).1.portfolio.openPositions
      "BTCUSDT" ≠ none ∧
    (processBar crossCfg crossKlines 101
      (processBar crossCfg crossKlines 100 crossInit).1).1.portfolio.openPositions
      "BTCUSDT" = none ∧
    runBacktest crossCfg () crossKlines =
      (processBar crossCfg crossKlines 101
        (processBar crossCfg crossKlines 100 crossInit).1).1 ∧
    Signal.confidenceOf (Signal.goLong 1) ≠ 0 := by
  refine ⟨?_, ?_, ?_, ?_, ?_, rfl, ?_⟩
  · with_unfolding_all decide
  · with_unfolding_all decide
  · with_unfolding_all decide
  · with_unfolding_all decide
  · with_unfolding_all decide
  · decide

/-- C7 as amended: every trade the driver records carries the constant
`signal_confidence = 0` — `0` for system stop-outs exactly as claimed,
but for strategy-driven closes the driver writes the literal `0.0`
(`TODO: Get from signal if available`) instead of extracting the
closing order's originating-signal confidence, which is nonzero when an
entry signal triggers the close (see the counterexample). -/
theorem trade_signal_confidence_recorded_zero {σ : Type}
    (cfg : BacktestConfig σ) (s0 : σ) (klines : List Kline) :
    ∀ t ∈ (backtestRun cfg s0 klines).2.1, t.signalConfidence = 0 := by
  intro t ht
  have h0 : ∀ u ∈ (runBacktest cfg s0 klines).trades,
      u.signalConfidence = 0 := by
    unfold runBacktest
    exact foldl_trades_zero_confidence cfg klines (processedIndices klines) _
      (by simp)
  exact h0 t ht

/-- Witness for `trade_signal_confidence_recorded_zero`: the stop-out
scenario run records one trade, with `signal_confidence = 0`. -/
theorem trade_signal_confidence_recorded_zero_witness :
    scenarioTrade ∈ (backtestRun scenarioCfg () scenarioKlines).2.1 ∧
    scenarioTrade.signalConfidence = 0 :=
  ⟨by with_unfolding_all decide,
    trade_signal_confidence_recorded_zero scenarioCfg () scenarioKlines
      scenarioTrade (by with_unfolding_all decide)⟩

/-- C1 (the code contradicts the claim): in the stop-out scenario the
`Trade` record the driver logs carries `pnl = 0` — the driver stores
`Decimal::ZERO` with a comment deferring the computation to analytics,
which never back-fills it — even though the claim's formula gives
`(95 − 100) · 20 · (+1) = −100`, which is exactly what the executor's
close realises into cash (10 000 → 9 900). -/
theorem backtest_trade_pnl_recorded_zero :
    (runBacktest scenarioCfg () scenarioKlines).trades = [scenarioTrade] ∧
    scenarioTrade.pnl = 0 ∧
    (scenarioTrade.exitPrice - scenarioTrade.entryPrice) *
      scenarioTrade.quantity * 1 = -100 ∧
    (processClose scenarioCfg.simSettings scenarioCloseOrder 95
      { initialCapital := 10000
        cash := 10000
        openPositions := fun s =>
          if s = "BTCUSDT" then some scenarioPosition else none }).2.cash =
      9900 := by
  refine ⟨by with_unfolding_all decide, rfl, by norm_num [scenarioTrade], ?_⟩
  simp only [processClose, scenarioCloseOrder, scenarioPosition,
    closeExecutionPrice, fillFee, scenarioCfg]
  norm_num

/-- C2 (the code contradicts the claim): the scenario processes two
bars but logs three equity points, because `record_trade` appends an
extra equity point at the trade's timestamp; the timestamp sequence
`[100, 101, 101]` is not strictly increasing. -/
theorem backtest_equity_curve_extra_point :
    ((runBacktest scenarioCfg () scenarioKlines).equityPoints.map
      EquityPoint.timestamp) = [100, 101, 101] ∧
    (processedIndices scenarioKlines).length = 2 ∧
    ¬ List.Chain' (fun a b : ℤ => a < b)
      ((runBacktest scenarioCfg () scenarioKlines).equityPoints.map
        EquityPoint.timestamp) := by
  have heq : ((runBacktest scenarioCfg () scenarioKlines).equityPoints.map
      EquityPoint.timestamp) = [100, 101, 101] := by
    with_unfolding_all decide
  refine ⟨heq, by decide, ?_⟩
  rw [heq]
  intro hchain
  rcases hchain with _ | ⟨_, hrest⟩
  rcases hrest with _ | ⟨h2, _⟩
  exact absurd h2 (by decide)

/-- Any two rankings of equal score compare `rankerLe` both ways, so a
filtered slice of equal-score survivors is pairwise ordered. -/
theorem pairwise_rankerLe_filter_eq (q : ℚ) (l : List RankedReport) :
    (l.filter fun r => decide (r.score = q)).Pairwise
      (fun a b => rankerLe a b = true) := by
  apply List.pairwise_of_forall_mem_list
  intro a ha b hb
  have ha' := (List.mem_filter.1 ha).2
  have hb' := (List.mem_filter.1 hb).2
  have haq : a.score = q := of_decide_eq_true ha'
  have hbq : b.score = q := of_decide_eq_true hb'
  simp [rankerLe, haq, hbq]

/-- C8: the ranker keeps exactly the reports with at least 30 trades,
scores each survivor with
`40·min(pf,5) + 30·min(sharpe,5) − 35·(maxdd/100) + 15·calmar`
(`rankerSurvivors`/`calculateScore`), and returns them sorted with
non-increasing scores; reports of equal score stay in their input
order (every equal-score slice of the output equals the corresponding
slice of the survivor list). -/
theorem ranker_filter_score_sort (reports : List FullReport) :
    (analyzeAndRank reports).Perm (rankerSurvivors reports) ∧
    List.Pairwise (fun a b : RankedReport => b.score ≤ a.score)
      (analyzeAndRank reports) ∧
    ∀ q : ℚ,
      ((analyzeAndRank reports).filter fun r => decide (r.score = q)) =
        ((rankerSurvivors reports).filter fun r => decide (r.score = q)) := by
  have htrans : ∀ a b c : RankedReport, rankerLe a b = true →
      rankerLe b c = true → rankerLe a c = true := by
    intro a b c h1 h2
    have h1' : b.score ≤ a.score := of_decide_eq_true h1
    have h2' : c.score ≤ b.score := of_decide_eq_true h2
    exact decide_eq_true (le_trans h2' h1')
  have htot : ∀ a b : RankedReport,
      (rankerLe a b || rankerLe b a) = true := by
    intro a b
    simp only [rankerLe, Bool.or_eq_true, decide_eq_true_eq]
    exact le_total b.score a.score
  refine ⟨List.mergeSort_perm _ rankerLe, ?_, ?_⟩
  · have hp := List.sorted_mergeSort htrans htot (rankerSurvivors reports)
    exact hp.imp fun h => of_decide_eq_true h
  · intro q
    have hperm : ((analyzeAndRank reports).filter
        fun r => decide (r.score = q)).Perm
        ((rankerSurvivors reports).filter fun r => decide (r.score = q)) :=
      (List.mergeSort_perm (rankerSurvivors reports) rankerLe).filter _
    have hsub : ((rankerSurvivors reports).filter
        fun r => decide (r.score = q)).Sublist (analyzeAndRank reports) :=
      List.sublist_mergeSort htrans htot
        (pairwise_rankerLe_filter_eq q (rankerSurvivors reports))
        (List.filter_sublist _)
    have hsub2 : ((rankerSurvivors reports).filter
        fun r => decide (r.score = q)).Sublist
        ((analyzeAndRank reports).filter fun r => decide (r.score = q)) := by
      have := hsub.filter (fun r => decide (r.score = q))
      rwa [List.filter_filter, (by
        funext r
        simp : (fun r : RankedReport =>
          (decide (r.score = q) && decide (r.score = q))) =
          fun r => decide (r.score = q))] at this
    exact (hsub2.eq_of_length hperm.length_eq.symm).symm

/-- C10 counterexample: with one trade and an equity curve containing a
zero-valued point in non-final position, the per-point return
`w[1].value / w[0].value` is a `rust_decimal` division by zero and the
engine panics (modelled by `none`) instead of returning a report. -/
theorem analytics_zero_equity_panics :
    calculate 10000 [plainTrade] [⟨0, 0⟩, ⟨1, 1⟩] = none := by
  rfl

/-- `mapOrNone` succeeds when every element does. -/
theorem mapOrNone_some {α β : Type} (f : α → Option β) :
    ∀ l : List α, (∀ a ∈ l, (f a).isSome) → ∃ bs, mapOrNone f l = some bs := by
  intro l
  induction l with
  | nil => exact fun _ => ⟨[], rfl⟩
  | cons a l ih =>
      intro h
      obtain ⟨b, hb⟩ := Option.isSome_iff_exists.1 (h a (List.mem_cons_self a l))
      obtain ⟨bs, hbs⟩ := ih fun x hx => h x (List.mem_cons_of_mem a hx)
      exact ⟨b :: bs, by simp [mapOrNone, hb, hbs]⟩

/-- C10 as amended: `AnalyticsEngine::calculate` returns a report
whenever no equity point used as a return divisor is zero and no trade
has leverage zero (the two `rust_decimal` division-by-zero panics), and
on that region every metric whose divisor can vanish is reported as `0`
except the two `+∞` cases: an empty trade list gives the zero report;
no losing trades give `profit_factor = +∞` (`none`); a non-positive
initial capital leaves `net_pnl_percentage = 0`; a non-positive running
peak leaves `max_drawdown_percentage = 0`; a zero drawdown leaves
`calmar_ratio = 0`; a short equity curve leaves Sharpe and Sortino at
their zero defaults; zero return variance (a flat curve) leaves
`sharpe_ratio = 0`; no negative returns give `sortino_ratio = +∞`
(`none`); and a failed average-margin/average-leverage guard leaves
`larom = 0`.  The remaining divisors (win rate, expectancy, average
duration, bucket win rates) are trade counts that are at least one on
this branch, so no zero-divisor case exists for them. -/
theorem analytics_totality_and_zero_policy (initialCapital : ℚ)
    (trades : List Trade) (equityCurve : List EquityPoint)
    (hz : ∀ w ∈ equityCurve.zip equityCurve.tail, w.1.value ≠ 0)
    (hlev : ∀ t ∈ trades, t.leverage ≠ 0) :
    (calculate initialCapital trades equityCurve).isSome = true ∧
    ∀ r, calculate initialCapital trades equityCurve = some r →
      (trades = [] → r = PerformanceReport.new) ∧
      (trades ≠ [] →
        ((trades.filter fun t => t.pnl < 0) = [] → r.profitFactor = none) ∧
        (¬ 0 < initialCapital → r.netPnlPercentage = 0) ∧
        (¬ 0 < (equityCurve.foldl drawdownStep (initialCapital, 0)).1 →
          r.maxDrawdownPercentage = 0) ∧
        (¬ 0 < r.maxDrawdownPercentage → r.calmarRatio = 0) ∧
        (¬ 1 < equityCurve.length →
          r.sharpeRatio = 0 ∧ r.sortinoRatio = some 0) ∧
        (∀ rets, equityReturns equityCurve = some rets →
          1 < equityCurve.length →
          ((rets.map fun x => (x - rets.sum / (rets.length : ℚ)) ^ 2).sum = 0 →
            r.sharpeRatio = 0)) ∧
        (∀ rets, equityReturns equityCurve = some rets →
          1 < equityCurve.length → (∀ x ∈ rets, ¬ x < 0) →
          r.sortinoRatio = none) ∧
        (∀ ms, mapOrNone (fun t =>
            if (t.leverage : ℚ) = 0 then none
            else some (t.entryPrice * t.quantity / (t.leverage : ℚ)))
            trades = some ms →
          ¬ (0 < ms.sum / (trades.length : ℚ) ∧
             0 < ((trades.map fun t => (t.leverage : ℚ)).sum) /
               (trades.length : ℚ)) →
          r.larom = 0)) := by
  by_cases htr : trades = []
  · subst htr
    refine ⟨rfl, fun r hr => ⟨fun _ => ?_, fun h => absurd rfl h⟩⟩
    have : PerformanceReport.new = r := Option.some_inj.1 hr
    exact this.symm
  · have hrets : ∃ rets, equityReturns equityCurve = some rets :=
      mapOrNone_some _ _ fun w hw => by
        simp only [Option.isSome]
        rw [if_neg (hz w hw)]
    have hmargins : ∃ ms, mapOrNone (fun t =>
        if (t.leverage : ℚ) = 0 then none
        else some (t.entryPrice * t.quantity / (t.leverage : ℚ)))
        trades = some ms :=
      mapOrNone_some _ _ fun t ht => by
        have hq : ((t.leverage : ℚ)) ≠ 0 := by
          exact_mod_cast hlev t ht
        simp only [Option.isSome]
        rw [if_neg hq]
    obtain ⟨rets, hre⟩ := hrets
    obtain ⟨ms, hms⟩ := hmargins
    have hne : trades.isEmpty = false := by
      simpa [List.isEmpty_iff] using htr
    by_cases hlen : 1 < equityCurve.length
    · constructor
      · simp only [calculate, hne, Bool.false_eq_true, if_false,
          if_pos hlen, hre, hms, Option.bind_eq_bind, Option.some_bind,
          Option.pure_def]
        rfl
      · intro r hr
        simp only [calculate, hne, Bool.false_eq_true, if_false,
          if_pos hlen, hre, hms, Option.bind_eq_bind, Option.some_bind,
          Option.pure_def, Option.some.injEq] at hr
        subst hr
        refine ⟨fun h => absurd h htr, fun _ =>
          ⟨fun hnl => by simp [hnl], fun hic => by simp [if_neg hic],
            fun hpk => ?_, fun hdd => ?_, fun hl => absurd hlen hl,
            fun rets2 hre2 _ hvs => ?_,
            fun rets2 hre2 _ hnneg => ?_,
            fun ms2 hms2 hno => ?_⟩⟩
        · dsimp only at hpk ⊢
          rw [if_neg hpk]
        · dsimp only at hdd ⊢
          rw [if_neg hdd]
        · have hr2 : rets2 = rets := by
            rw [hre] at hre2
            exact (Option.some_inj.1 hre2).symm
          subst hr2
          dsimp only
          rw [hvs, zero_div]
          have hs0 : Rat.sqrt 0 = 0 := rfl
          rw [hs0]
          simp
        · have hr2 : rets2 = rets := by
            rw [hre] at hre2
            exact (Option.some_inj.1 hre2).symm
          subst hr2
          have hfil : rets2.filter (fun x => decide (x < 0)) = [] :=
            List.filter_eq_nil_iff.2 fun x hx => by
              simpa using hnneg x hx
          simp [hfil]
        · have hm2 : ms2 = ms := by
            rw [hms] at hms2
            exact (Option.some_inj.1 hms2).symm
          subst hm2
          dsimp only
          rw [if_neg hno]
    · constructor
      · simp only [calculate, hne, Bool.false_eq_true, if_false,
          if_neg hlen, hms, Option.bind_eq_bind, Option.some_bind,
          Option.pure_def]
        rfl
      · intro r hr
        simp only [calculate, hne, Bool.false_eq_true, if_false,
          if_neg hlen, hms, Option.bind_eq_bind, Option.some_bind,
          Option.pure_def, Option.some.injEq] at hr
        subst hr
        refine ⟨fun h => absurd h htr, fun _ =>
          ⟨fun hnl => by simp [hnl], fun hic => by simp [if_neg hic],
            fun hpk => ?_, fun hdd => ?_, fun _ => by simp,
            fun rets2 hre2 hlen2 hvs => absurd hlen2 hlen,
            fun rets2 hre2 hlen2 hnneg => absurd hlen2 hlen,
            fun ms2 hms2 hno => ?_⟩⟩
        · dsimp only at hpk ⊢
          rw [if_neg hpk]
        · dsimp only at hdd ⊢
          rw [if_neg hdd]
        · have hm2 : ms2 = ms := by
            rw [hms] at hms2
            exact (Option.some_inj.1 hms2).symm
          subst hm2
          dsimp only
          rw [if_neg hno]

/-- Witness for `analytics_totality_and_zero_policy` at a concrete
winning trade and a two-point equity curve with nonzero values. -/
theorem analytics_totality_and_zero_policy_witness :
    (calculate 10000 [plainTrade] [⟨0, 10000⟩, ⟨1, 10100⟩]).isSome = true :=
  (analytics_totality_and_zero_policy 10000 [plainTrade]
    [⟨0, 10000⟩, ⟨1, 10100⟩] (by decide) (by decide)).1

theorem stateSizesProd_cons (vs : List PValue) (i : ℕ)
    (rest : List (List PValue × ℕ)) :
    stateSizesProd ((vs, i) :: rest) = vs.length * stateSizesProd rest := by
  simp [stateSizesProd]

/-- The sizes product only depends on the value vectors. -/
theorem stateSizesProd_congr {state state' : List (List PValue × ℕ)}
    (h : state'.map Prod.fst = state.map Prod.fst) :
    stateSizesProd state' = stateSizesProd state := by
  unfold stateSizesProd
  rw [show (state'.map fun p => p.1.length) =
      (state'.map Prod.fst).map List.length from (List.map_map _ _ _).symm,
    h, List.map_map]
  rfl

theorem stateSizesProd_pos {state : List (List PValue × ℕ)}
    (h : ValidState state) : 0 < stateSizesProd state := by
  induction state with
  | nil => exact Nat.one_pos
  | cons p rest ih =>
      obtain ⟨vs, i⟩ := p
      rw [stateSizesProd_cons]
      exact Nat.mul_pos
        (Nat.lt_of_le_of_lt (Nat.zero_le _) (h _ (List.mem_cons_self _ _)))
        (ih fun q hq => h q (List.mem_cons_of_mem _ hq))

theorem rankOf_lt_prod {state : List (List PValue × ℕ)}
    (h : ValidState state) : rankOf state < stateSizesProd state := by
  induction state with
  | nil => exact Nat.one_pos
  | cons p rest ih =>
      obtain ⟨vs, i⟩ := p
      have hi : i < vs.length := h _ (List.mem_cons_self _ _)
      have hr : rankOf rest < stateSizesProd rest :=
        ih fun q hq => h q (List.mem_cons_of_mem _ hq)
      rw [rankOf, stateSizesProd_cons]
      calc i * stateSizesProd rest + rankOf rest
          < i * stateSizesProd rest + stateSizesProd rest := by omega
        _ = (i + 1) * stateSizesProd rest := by ring
        _ ≤ vs.length * stateSizesProd rest :=
            Nat.mul_le_mul_right _ hi

/-- The zero index vector has rank zero. -/
theorem rankOf_zeros (rest : List (List PValue × ℕ)) :
    rankOf (rest.map fun p => (p.1, 0)) = 0 := by
  induction rest with
  | nil => rfl
  | cons p rest ih => simp [rankOf, ih]

/-- A fully wrapped-around state (the enumerator's stopping condition)
is the last combination: its rank is the sizes product minus one. -/
theorem bump_none_rank {state : List (List PValue × ℕ)}
    (hv : ValidState state) (hb : bumpIndices state = none) :
    rankOf state = stateSizesProd state - 1 := by
  induction state with
  | nil => rfl
  | cons p rest ih =>
      obtain ⟨vs, i⟩ := p
      have hi : i < vs.length := hv _ (List.mem_cons_self _ _)
      have hvr : ValidState rest := fun q hq => hv q (List.mem_cons_of_mem _ hq)
      rw [bumpIndices] at hb
      cases hbr : bumpIndices rest with
      | some rest' => rw [hbr] at hb; cases hb
      | none =>
          rw [hbr] at hb
          have hlast : ¬ i + 1 < vs.length := by
            by_contra hc
            rw [if_pos hc] at hb
            cases hb
          have hrr : rankOf rest = stateSizesProd rest - 1 := ih hvr hbr
          have hP : 0 < stateSizesProd rest := stateSizesProd_pos hvr
          have hlen2 : vs.length = i + 1 := by omega
          rw [rankOf, stateSizesProd_cons, hrr, hlen2, Nat.succ_mul]
          omega

/-- A successful bump preserves validity and the value vectors and
increments the rank by exactly one. -/
theorem bump_some_rank {state state' : List (List PValue × ℕ)}
    (hv : ValidState state) (hb : bumpIndices state = some state') :
    ValidState state' ∧ state'.map Prod.fst = state.map Prod.fst ∧
      rankOf state' = rankOf state + 1 := by
  induction state generalizing state' with
  | nil => cases hb
  | cons p rest ih =>
      obtain ⟨vs, i⟩ := p
      have hi : i < vs.length := hv _ (List.mem_cons_self _ _)
      have hvr : ValidState rest := fun q hq => hv q (List.mem_cons_of_mem _ hq)
      rw [bumpIndices] at hb
      cases hbr : bumpIndices rest with
      | some rest' =>
          rw [hbr] at hb
          cases hb
          obtain ⟨hv', hf', hr'⟩ := ih hvr hbr
          have hPP : stateSizesProd rest' = stateSizesProd rest :=
            stateSizesProd_congr hf'
          refine ⟨?_, by simp [hf'], ?_⟩
          · intro q hq
            rcases List.mem_cons.1 hq with hq | hq
            · rw [hq]; exact hi
            · exact hv' q hq
          · rw [rankOf, rankOf, hPP, hr']
            ring
      | none =>
          rw [hbr] at hb
          by_cases hc : i + 1 < vs.length
          · rw [if_pos hc] at hb
            cases hb
            have hrr : rankOf rest = stateSizesProd rest - 1 :=
              bump_none_rank hvr hbr
            have hP : 0 < stateSizesProd rest := stateSizesProd_pos hvr
            have hzf : (rest.map fun p => (p.1, 0)).map Prod.fst =
                rest.map Prod.fst := by
              rw [List.map_map]; rfl
            have hPz : stateSizesProd (rest.map fun p => (p.1, 0)) =
                stateSizesProd rest := stateSizesProd_congr hzf
            refine ⟨?_, by simp [hzf], ?_⟩
            · intro q hq
              rcases List.mem_cons.1 hq with hq | hq
              · rw [hq]; exact hc
              · obtain ⟨q0, hq0, rfl⟩ := List.mem_map.1 hq
                exact Nat.lt_of_le_of_lt (Nat.zero_le _) (hvr q0 hq0)
            · rw [rankOf, rankOf, hPz, rankOf_zeros, hrr]
              rw [Nat.succ_mul]
              omega
          · rw [if_neg hc] at hb
            cases hb

/-- With fuel equal to the number of remaining combinations, the
enumeration loop emits exactly that many tables. -/
theorem enumLoop_length (keys : List String) :
    ∀ (n : ℕ) (state : List (List PValue × ℕ)), ValidState state →
      n + rankOf state = stateSizesProd state →
      (enumLoop keys n state).length = n := by
  intro n
  induction n with
  | zero => intro state _ _; rfl
  | succ n ih =>
      intro state hv hsum
      rw [enumLoop]
      cases hb : bumpIndices state with
      | none =>
          have hr := bump_none_rank hv hb
          have hP := stateSizesProd_pos hv
          have : n = 0 := by omega
          simp [this]
      | some state' =>
          obtain ⟨hv', hf', hr'⟩ := bump_some_rank hv hb
          have hPP : stateSizesProd state' = stateSizesProd state :=
            stateSizesProd_congr hf'
          have : (enumLoop keys n state').length = n :=
            ih state' hv' (by omega)
          simp [this]

/-- Every emitted table zips the keys with one value chosen from each
parameter's value vector. -/
theorem enumLoop_mem (keys : List String) :
    ∀ (n : ℕ) (state : List (List PValue × ℕ)), ValidState state →
      ∀ t ∈ enumLoop keys n state, ∃ chosen, t = keys.zip chosen ∧
        List.Forall₂ (fun vs v => v ∈ vs) (state.map Prod.fst) chosen := by
  have hsel : ∀ state : List (List PValue × ℕ), ValidState state →
      List.Forall₂ (fun vs v => v ∈ vs) (state.map Prod.fst)
        (selectValues state) := by
    intro state
    induction state with
    | nil => exact fun _ => List.Forall₂.nil
    | cons p rest ih =>
        intro hv
        refine List.Forall₂.cons ?_ (ih fun q hq => hv q (List.mem_cons_of_mem _ hq))
        have hp : p.2 < p.1.length := hv p (List.mem_cons_self _ _)
        show p.1.getD p.2 (PValue.int 0) ∈ p.1
        rw [List.getD_eq_getElem p.1 _ hp]
        exact List.getElem_mem hp
  intro n
  induction n with
  | zero => intro state _ t ht; cases ht
  | succ n ih =>
      intro state hv t ht
      rw [enumLoop] at ht
      rcases List.mem_cons.1 ht with rfl | ht
      · exact ⟨selectValues state, rfl, hsel state hv⟩
      · cases hb : bumpIndices state with
        | none => rw [hb] at ht; cases ht
        | some state' =>
            rw [hb] at ht
            obtain ⟨hv', hf', _⟩ := bump_some_rank hv hb
            obtain ⟨chosen, hc1, hc2⟩ := ih state' hv' t ht
            exact ⟨chosen, hc1, hf' ▸ hc2⟩

/-- `mapOrNone` preserves length on success. -/
theorem mapOrNone_length {α β : Type} (f : α → Option β) :
    ∀ (l : List α) (bs : List β), mapOrNone f l = some bs →
      bs.length = l.length := by
  intro l
  induction l with
  | nil => intro bs h; cases h; rfl
  | cons a l ih =>
      intro bs h
      rw [mapOrNone] at h
      cases hfa : f a with
      | none => rw [hfa] at h; cases h
      | some b =>
          rw [hfa] at h
          cases hml : mapOrNone f l with
          | none => rw [hml] at h; cases h
          | some bs' =>
              rw [hml] at h
              cases h
              simp [ih bs' hml]

/-- The zero state built from the value vectors has rank zero. -/
theorem rankOf_zeros_of_lists (l : List (List PValue)) :
    rankOf (l.map fun vs => (vs, 0)) = 0 := by
  induction l with
  | nil => rfl
  | cons vs l ih => simp [rankOf, ih]

/-- The combination enumerator, on a nonempty list of nonempty value
vectors, emits exactly `Π_i |values_i|` tables, each zipping the keys
with one value chosen per vector. -/
theorem enumTables_spec (keys : List String) (valueLists : List (List PValue))
    (hne : valueLists ≠ []) (hall : ∀ vs ∈ valueLists, vs ≠ []) :
    ∃ tables, enumTables keys valueLists = some tables ∧
      tables.length = gridSize valueLists ∧
      ∀ t ∈ tables, ∃ chosen, t = keys.zip chosen ∧
        List.Forall₂ (fun vs v => v ∈ vs) valueLists chosen := by
  have h1 : valueLists.isEmpty = false := by
    simpa [List.isEmpty_iff] using hne
  have h2 : valueLists.any List.isEmpty = false := by
    rw [List.any_eq_false]
    intro vs hvs
    simpa [List.isEmpty_iff] using hall vs hvs
  have hv : ValidState (valueLists.map fun vs => (vs, 0)) := by
    intro p hp
    obtain ⟨vs, hvs, rfl⟩ := List.mem_map.1 hp
    exact List.length_pos.2 (hall vs hvs)
  have hfst : (valueLists.map fun vs => (vs, 0)).map Prod.fst = valueLists := by
    rw [List.map_map]
    exact List.map_id valueLists
  have hprod : stateSizesProd (valueLists.map fun vs => (vs, 0)) =
      gridSize valueLists := by
    unfold stateSizesProd gridSize
    rw [List.map_map]
    rfl
  refine ⟨enumLoop keys (gridSize valueLists)
      (valueLists.map fun vs => (vs, 0)), ?_, ?_, ?_⟩
  · simp [enumTables, h1, h2]
  · exact enumLoop_length keys (gridSize valueLists) _ hv
      (by rw [rankOf_zeros_of_lists, hprod]; omega)
  · intro t ht
    obtain ⟨chosen, hc1, hc2⟩ :=
      enumLoop_mem keys (gridSize valueLists) _ hv t ht
    exact ⟨chosen, hc1, hfst ▸ hc2⟩

/-- The generation loop, given fuel covering every iteration whose
guard succeeds, produces exactly the arithmetic sequence. -/
theorem rangeLoop_eq_map (isInt : Bool) (e step : ℚ) :
    ∀ (n : ℕ) (v : ℚ), (∀ k : ℕ, k < n → v + k * step ≤ e + rangeEps) →
      rangeLoop isInt e step n v =
        (List.range n).map fun (k : ℕ) =>
          rangePush isInt (v + (k : ℚ) * step) := by
  intro n
  induction n with
  | zero => intro v _; rfl
  | succ n ih =>
      intro v h
      have h0 : v ≤ e + rangeEps := by
        have := h 0 (Nat.succ_pos n)
        simpa using this
      have hshift : ∀ k : ℕ, k < n → (v + step) + k * step ≤ e + rangeEps := by
        intro k hk
        have hk1 := h (k + 1) (Nat.succ_lt_succ hk)
        have heq : v + ((k + 1 : ℕ) : ℚ) * step = v + step + k * step := by
          push_cast
          ring
        rwa [heq] at hk1
      rw [rangeLoop, if_pos h0, ih (v + step) hshift,
        List.range_succ_eq_map, List.map_cons, List.map_map]
      congr 1
      · norm_num
      · apply List.map_congr_left
        intro k _
        show rangePush isInt (v + step + k * step) =
          rangePush isInt (v + ((k + 1 : ℕ) : ℚ) * step)
        congr 1
        push_cast
        ring

/-- `expand_value` on a range with positive step whose start is within
the slack-adjusted end: the exact arithmetic sequence, its bound, and
its maximality. -/
theorem expandValue_range_spec (a b : NumV) (st : Option NumV)
    (hstep : 0 < stepOf st) (hse : a.toRat ≤ b.toRat + rangeEps) :
    expandValue (PValue.rangeTbl a b st) =
      some ((List.range (rangeFuel a.toRat b.toRat (stepOf st))).map
        fun (k : ℕ) =>
        rangePush (a.isInt && b.isInt && decide (stepOf st = ⌊stepOf st⌋))
          (a.toRat + (k : ℚ) * stepOf st)) ∧
    (∀ k : ℕ, k < rangeFuel a.toRat b.toRat (stepOf st) →
      a.toRat + k * stepOf st ≤ b.toRat + rangeEps) ∧
    b.toRat + rangeEps <
      a.toRat + (rangeFuel a.toRat b.toRat (stepOf st) : ℚ) * stepOf st := by
  have hx0 : (0 : ℚ) ≤ (b.toRat + rangeEps - a.toRat) / stepOf st :=
    div_nonneg (by linarith) (le_of_lt hstep)
  have hfl0 : 0 ≤ ⌊(b.toRat + rangeEps - a.toRat) / stepOf st⌋ :=
    Int.floor_nonneg.2 hx0
  have hN : (rangeFuel a.toRat b.toRat (stepOf st) : ℤ) =
      ⌊(b.toRat + rangeEps - a.toRat) / stepOf st⌋ + 1 := by
    rw [rangeFuel, Int.toNat_of_nonneg (by omega)]
  have hbound : ∀ k : ℕ, k < rangeFuel a.toRat b.toRat (stepOf st) →
      a.toRat + k * stepOf st ≤ b.toRat + rangeEps := by
    intro k hk
    have hk' : (k : ℤ) ≤ ⌊(b.toRat + rangeEps - a.toRat) / stepOf st⌋ := by
      have hkN : (k : ℤ) < rangeFuel a.toRat b.toRat (stepOf st) := by
        exact_mod_cast hk
      omega
    have hkx : (k : ℚ) ≤ (b.toRat + rangeEps - a.toRat) / stepOf st := by
      calc (k : ℚ) ≤
          (⌊(b.toRat + rangeEps - a.toRat) / stepOf st⌋ : ℚ) := by
            exact_mod_cast hk'
        _ ≤ _ := Int.floor_le _
    have hmul : (k : ℚ) * stepOf st ≤ b.toRat + rangeEps - a.toRat := by
      calc (k : ℚ) * stepOf st ≤
          ((b.toRat + rangeEps - a.toRat) / stepOf st) * stepOf st :=
            mul_le_mul_of_nonneg_right hkx (le_of_lt hstep)
        _ = b.toRat + rangeEps - a.toRat :=
            div_mul_cancel₀ _ (ne_of_gt hstep)
    linarith
  have hmax : b.toRat + rangeEps <
      a.toRat + (rangeFuel a.toRat b.toRat (stepOf st) : ℚ) * stepOf st := by
    have hlt : (b.toRat + rangeEps - a.toRat) / stepOf st <
        ((rangeFuel a.toRat b.toRat (stepOf st) : ℤ) : ℚ) := by
      rw [hN]
      push_cast
      exact Int.lt_floor_add_one _
    have hmul : b.toRat + rangeEps - a.toRat <
        (rangeFuel a.toRat b.toRat (stepOf st) : ℚ) * stepOf st := by
      have h2 := mul_lt_mul_of_pos_right hlt hstep
      rw [div_mul_cancel₀ _ (ne_of_gt hstep)] at h2
      calc b.toRat + rangeEps - a.toRat
          < ((rangeFuel a.toRat b.toRat (stepOf st) : ℤ) : ℚ) * stepOf st := h2
        _ = (rangeFuel a.toRat b.toRat (stepOf st) : ℚ) * stepOf st := by
            push_cast
            ring
    linarith
  refine ⟨?_, hbound, hmax⟩
  rw [expandValue, if_pos hstep, rangeLoop_eq_map _ _ _ _ _ hbound]

/-- C9 as amended: provided the table is nonempty and every
per-parameter value vector expands nonempty (which requires every range
to have a positive step reaching its start), grid expansion produces
exactly the cartesian product: `Π_i |values_i|` parameter sets, each
choosing one value per parameter; a `{start, end, step}` range with
positive step expands to `start, start+step, …` while the value stays
`≤ end + 1e-8` (and the next value would exceed it), staying TOML
integers exactly when start and end are integers and the step is whole
(the `rangePush` condition); a scalar expands to itself. -/
theorem grid_expansion_cartesian_product :
    (∀ (params : List (String × PValue)) (valueLists : List (List PValue)),
      params ≠ [] →
      mapOrNone (fun p => expandValue p.2) params = some valueLists →
      (∀ vs ∈ valueLists, vs ≠ []) →
      ∃ tables, generateParameterSets params = some tables ∧
        tables.length = gridSize valueLists ∧
        ∀ t ∈ tables, ∃ chosen, t = (params.map Prod.fst).zip chosen ∧
          List.Forall₂ (fun vs v => v ∈ vs) valueLists chosen) ∧
    (∀ (a b : NumV) (st : Option NumV), 0 < stepOf st →
      a.toRat ≤ b.toRat + rangeEps →
      expandValue (PValue.rangeTbl a b st) =
        some ((List.range (rangeFuel a.toRat b.toRat (stepOf st))).map
          fun (k : ℕ) =>
          rangePush (a.isInt && b.isInt && decide (stepOf st = ⌊stepOf st⌋))
            (a.toRat + (k : ℚ) * stepOf st)) ∧
      (∀ k : ℕ, k < rangeFuel a.toRat b.toRat (stepOf st) →
        a.toRat + k * stepOf st ≤ b.toRat + rangeEps) ∧
      b.toRat + rangeEps <
        a.toRat + (rangeFuel a.toRat b.toRat (stepOf st) : ℚ) * stepOf st) ∧
    (∀ z : ℤ, expandValue (PValue.int z) = some [PValue.int z]) ∧
    (∀ q : ℚ, expandValue (PValue.float q) = some [PValue.float q]) := by
  refine ⟨?_, fun a b st h1 h2 => expandValue_range_spec a b st h1 h2,
    fun z => rfl, fun q => rfl⟩
  intro params valueLists hne hm hall
  have hvl : valueLists ≠ [] := by
    intro h
    subst h
    exact hne (List.length_eq_zero.1 (mapOrNone_length _ params [] hm).symm)
  obtain ⟨tables, ht1, ht2, ht3⟩ :=
    enumTables_spec (params.map Prod.fst) valueLists hvl hall
  refine ⟨tables, ?_, ht2, ht3⟩
  simp [generateParameterSets, hm, ht1]

/-- Witness for `grid_expansion_cartesian_product`: a one-parameter
scalar grid expands to its single one-entry combination. -/
theorem grid_expansion_cartesian_product_witness :
    ∃ tables, generateParameterSets
        [("confidence", PValue.float (4/5))] = some tables ∧
      tables.length = gridSize [[PValue.float (4/5)]] ∧
      ∀ t ∈ tables, ∃ chosen,
        t = ([("confidence", PValue.float (4/5))].map Prod.fst).zip chosen ∧
        List.Forall₂ (fun vs v => v ∈ vs) [[PValue.float (4/5)]] chosen :=
  grid_expansion_cartesian_product.1 [("confidence", PValue.float (4/5))]
    [[PValue.float (4/5)]] (by simp) rfl (by simp)

/-- C9 counterexample: a range with `start = 1 > end = 0` expands to
the empty value vector, so the cartesian product has `Π_i |values_i| = 0`
sets — but the enumeration loop indexes `value_lists[i][0]` and panics
(modelled by `none`) instead of producing zero parameter sets, so the
claim fails on this table. -/
theorem grid_expansion_empty_range_panics :
    mapOrNone (fun p => expandValue p.2)
      [("p", PValue.rangeTbl (NumV.i 1) (NumV.i 0) none)] = some [[]] ∧
    gridSize [([] : List PValue)] = 0 ∧
    generateParameterSets
      [("p", PValue.rangeTbl (NumV.i 1) (NumV.i 0) none)] = none ∧
    ¬ ∃ tables, generateParameterSets
        [("p", PValue.rangeTbl (NumV.i 1) (NumV.i 0) none)] = some tables ∧
      tables.length = gridSize [([] : List PValue)] := by
  have hfloor : ⌊(((NumV.i 0).toRat + rangeEps - (NumV.i 1).toRat) /
      stepOf none)⌋ = -1 := by
    rw [Int.floor_eq_iff]
    norm_num [NumV.toRat, stepOf, rangeEps]
  have hfuel : rangeFuel (NumV.i 1).toRat (NumV.i 0).toRat (stepOf none) = 0 := by
    rw [rangeFuel, hfloor]
    rfl
  have hexp : expandValue (PValue.rangeTbl (NumV.i 1) (NumV.i 0) none) =
      some [] := by
    rw [expandValue, if_pos (by norm_num [stepOf, NumV.toRat] : (0:ℚ) < stepOf none),
      hfuel]
    rfl
  have hmap : mapOrNone (fun p => expandValue p.2)
      [("p", PValue.rangeTbl (NumV.i 1) (NumV.i 0) none)] = some [[]] := by
    simp [mapOrNone, hexp]
  have hgen : generateParameterSets
      [("p", PValue.rangeTbl (NumV.i 1) (NumV.i 0) none)] = none := by
    simp [generateParameterSets, hmap, enumTables]
  refine ⟨hmap, rfl, hgen, ?_⟩
  rintro ⟨tables, hts, -⟩
  rw [hgen] at hts
  cases hts

end Atlas
